import Mathlib

/-!
Shallow embedding of `src/images.py` (sample-image-generator).

The repository generates a batch of letter-on-background images together
with sidecar metadata.  The embedding below models the pure computational
core: the weighted letter sampler `get_random_letter`, the palette color
sampler `get_random_hex_color` with its expanded `DARKS`/`LIGHTS` palettes,
the `MetaData` record and its two serializations, the metadata construction
performed by `gen_image`, and the index-based file naming of
`save_output`/`generate_images`.

Randomness is made explicit: `random.random()` becomes a rational
parameter `u` with `0 ≤ u < 1`, `random.choice(seq)` becomes an index
parameter (CPython raises `IndexError` on an empty sequence, modelled by
`Except PyError`).  Python floats are modelled as exact rationals equal to
the decimal literals of the source.
-/

/-- Errors CPython can raise in the modelled fragment. -/
inductive PyError where
  | IndexError
deriving DecidableEq

/-- Model of `random.choice(seq)` applied at a drawn index `i`:
CPython evaluates `seq[self._randbelow(len(seq))]`, where the drawn index
is uniform in `[0, len)` for a nonempty `seq`, and `_randbelow(0) = 0` so
an empty `seq` raises `IndexError`. -/
def randomChoice (l : List String) (i : Nat) : Except PyError String :=
  if h : i < l.length then .ok (l.get ⟨i, h⟩) else .error .IndexError

/-- The `LETTERS` table of the source, in source (dict-insertion) order,
with the float literals read as exact rationals. -/
def LETTERS : List (Char × ℚ) :=
  [('a', 0.0846402860096712), ('h', 0.026430828106619526), ('e', 0.10772176322650225),
   ('d', 0.03238955368790574), ('i', 0.08956630698939853), ('n', 0.0719479487121524),
   ('g', 0.023643469967582403), ('s', 0.0716180211960545), ('l', 0.05577434674781033),
   ('m', 0.030104955866114096), ('r', 0.07043308637891531), ('v', 0.009464312744959735),
   ('k', 0.007672746241673479), ('w', 0.006411696316744151), ('o', 0.07199344608861344),
   ('f', 0.011227836840112776), ('c', 0.0437750575370124), ('t', 0.06606991659100463),
   ('u', 0.03762718877433788), ('b', 0.018296526718835086), ('y', 0.02019654294337122),
   ('x', 0.0030025406994062735), ('j', 0.001561218150763426), ('p', 0.03252432893515823),
   ('z', 0.004222671600222851), ('q', 0.0016834029290581443)]

/-- The cumulative-subtraction loop of `get_random_letter`:
`for k, v in table: rand -= v; if rand < 0: return k`.
Falling off the end of the loop is Python returning `None`. -/
def subLoop : List (Char × ℚ) → ℚ → Option Char
  | [], _ => none
  | (k, v) :: rest, rand =>
    if rand - v < 0 then some k else subLoop rest (rand - v)

/-- Body of `get_random_letter`, parameterized by its weight table:
`rand = random.random() * sum(table.values())`, then the subtraction loop.
The source instantiates the table with `LETTERS`. -/
def weightedSample (t : List (Char × ℚ)) (u : ℚ) : Option Char :=
  subLoop t (u * (t.map Prod.snd).sum)

/-- `get_random_letter`, with the uniform draw `u = random.random()` explicit. -/
def get_random_letter (u : ℚ) : Option Char :=
  weightedSample LETTERS u

/-- Sum of the first `i` weights of a table (the cumulative weight in
front of entry `i` in the subtraction loop). -/
def cumSum (t : List (Char × ℚ)) (i : Nat) : ℚ :=
  ((t.take i).map Prod.snd).sum

/-- The character pool of the no-palette fallback of `get_random_hex_color`:
the source string literal is `"abcdef01234567"`. -/
def fallbackAlphabet : List Char :=
  "abcdef01234567".toList

/-- The fallback branch of `get_random_hex_color`:
`"#" + "".join(random.choice("abcdef01234567") for _ in range(6))`,
with the six uniform character draws explicit as `f`. -/
def fallbackHex (f : Fin 6 → Fin fallbackAlphabet.length) : String :=
  "#" ++ String.mk ((List.finRange 6).map fun j => fallbackAlphabet.get (f j))

/-- `get_random_hex_color(pallete)` (spelling of the source kept).  The
`if not pallete` falsiness test sends both `None` and the empty list to the
fallback branch; otherwise the result is `"#" + random.choice(pallete)`. -/
def get_random_hex_color (pallete : Option (List String))
    (f : Fin 6 → Fin fallbackAlphabet.length) (i : Nat) : Except PyError String :=
  match pallete with
  | none => .ok (fallbackHex f)
  | some l =>
    if l.isEmpty then .ok (fallbackHex f)
    else (randomChoice l i).map fun c => "#" ++ c

/-- The `_DARKS` weight table of the source, in source order. -/
def _DARKS : List (String × Nat) :=
  [("171212", 5), ("002500", 4), ("083b49", 3), ("3d2b00", 2), ("3c011d", 1)]

/-- The `_LIGHTS` weight table of the source, in source order. -/
def _LIGHTS : List (String × Nat) :=
  [("f58eb9", 5), ("e19451", 4), ("f8f4a6", 3), ("bdf7b7", 2), ("b1b5e7", 1)]

/-- The palette expansion comprehension of the source:
`[x for k, v in table.items() for x in [k] * v]`. -/
def expandPalette (t : List (String × Nat)) : List String :=
  t.flatMap fun p => List.replicate p.2 p.1

/-- `DARKS = [x for k, v in _DARKS.items() for x in [k] * v]`. -/
def DARKS : List String := expandPalette _DARKS

/-- `LIGHTS = [x for k, v in _LIGHTS.items() for x in [k] * v]`. -/
def LIGHTS : List String := expandPalette _LIGHTS

/-- The `MetaData` wrapper class: the three attributes set by `__init__`,
in assignment order. -/
structure MetaData where
  bg_color : String
  letter : String
  letter_color : String
deriving DecidableEq

/-- `self.__dict__.items()` of a `MetaData` instance: the instance
attributes in the order `__init__` assigned them. -/
def MetaData.instanceDict (m : MetaData) : List (String × String) :=
  [("bg_color", m.bg_color), ("letter", m.letter), ("letter_color", m.letter_color)]

/-- `MetaData.to_dict`. -/
def MetaData.to_dict (m : MetaData) : List (String × String) :=
  [("bg_color", m.bg_color), ("letter", m.letter), ("letter_color", m.letter_color)]

/-- `MetaData.as_os_metadata`: one JSON object (modelled as its ordered
key-value list) per non-underscore instance attribute. -/
def MetaData.as_os_metadata (m : MetaData) : List (List (String × String)) :=
  (m.instanceDict.filter fun kv => kv.1.data.head? ≠ some '_').map
    fun kv => [("trait_type", kv.1), ("value", kv.2)]

/-- The attribute-sampling part of `gen_image`: background color from
`DARKS`, letter color from `LIGHTS`, letter from `get_random_letter`,
packed into a `MetaData`.  `iD`/`iL` are the two palette index draws, `u`
the letter draw; the result is `none` when the letter loop returns `None`. -/
def gen_image (iD iL : Nat) (f : Fin 6 → Fin fallbackAlphabet.length) (u : ℚ) :
    Except PyError (Option MetaData) := do
  let bg_color ← get_random_hex_color (some DARKS) f iD
  let letter_color ← get_random_hex_color (some LIGHTS) f iL
  pure ((get_random_letter u).map fun k =>
    { bg_color := bg_color, letter := String.mk [k], letter_color := letter_color })

/-- A fixed choice function for concrete instantiations. -/
def defaultHexChoice : Fin 6 → Fin fallbackAlphabet.length :=
  fun _ => ⟨0, by decide⟩

/-- `EXT = '.jpg'`. -/
def EXT : String := ".jpg"

/-- `TOTAL_IMAGES = 1000`. -/
def TOTAL_IMAGES : Nat := 1000

/-- Decimal digit to character, as Python `str` renders digits. -/
def digitToChar (d : Nat) : Char :=
  match d with
  | 0 => '0' | 1 => '1' | 2 => '2' | 3 => '3' | 4 => '4'
  | 5 => '5' | 6 => '6' | 7 => '7' | 8 => '8' | _ => '9'

/-- Python `str(n)` for a natural number: its decimal representation. -/
def decimalRepr (n : Nat) : String :=
  if n = 0 then "0" else String.mk (((Nat.digits 10 n).map digitToChar).reverse)

/-- Inverse digit map, for the round-trip proof. -/
def charToDigit (c : Char) : Nat := c.toNat - 48

/-- Decoder of a decimal string, used to show `decimalRepr` is injective. -/
def decodeDecimal (s : String) : Nat :=
  Nat.ofDigits 10 ((s.data.map charToDigit).reverse)

/-- The pair of file names `save_output(image_name, ...)` writes:
the image as `image_name + EXT`, the metadata as `image_name + "-meta.json"`. -/
def save_output_names (image_name : String) : String × String :=
  (image_name ++ EXT, image_name ++ "-meta.json")

/-- The file names produced by `generate_images` for a configured total
`n`: `save_output(str(i), ...)` for `i in range(n)` (the source fixes
`n = TOTAL_IMAGES`). -/
def generate_images_names (n : Nat) : List (String × String) :=
  (List.range n).map fun i => save_output_names (decimalRepr i)

/-! ### Helper lemmas about the subtraction loop -/

/-- The loop only ever returns keys of its table. -/
theorem subLoop_mem {t : List (Char × ℚ)} {r : ℚ} {c : Char}
    (h : subLoop t r = some c) : c ∈ t.map Prod.fst := by
  induction t generalizing r with
  | nil => simp [subLoop] at h
  | cons p rest ih =>
    obtain ⟨k, v⟩ := p
    by_cases hlt : r - v < 0
    · simp only [subLoop, if_pos hlt, Option.some.injEq] at h
      simp [h]
    · simp only [subLoop, if_neg hlt] at h
      simpa using Or.inr (ih h)

/-- Cumulative weights are nonnegative when all weights are. -/
theorem cumSum_nonneg (t : List (Char × ℚ)) (i : Nat)
    (h : ∀ p ∈ t, 0 ≤ p.2) : 0 ≤ cumSum t i := by
  apply List.sum_nonneg
  intro x hx
  obtain ⟨p, hp, rfl⟩ := List.mem_map.1 hx
  exact h p (List.mem_of_mem_take hp)

theorem cumSum_zero (t : List (Char × ℚ)) : cumSum t 0 = 0 := rfl

theorem cumSum_cons_succ (k : Char) (v : ℚ) (t : List (Char × ℚ)) (j : Nat) :
    cumSum ((k, v) :: t) (j + 1) = v + cumSum t j := by
  simp [cumSum, List.take_succ_cons]

/-- Interval characterization of the loop: for a table with distinct keys
and positive weights, a nonnegative draw `r` selects entry `i` exactly when
`r` lies in the half-open interval of length `wᵢ` starting at the
cumulative weight in front of entry `i`. -/
theorem subLoop_interval (t : List (Char × ℚ)) (i : Nat) (hi : i < t.length)
    (hpos : ∀ p ∈ t, 0 < p.2) (hnd : (t.map Prod.fst).Nodup)
    (r : ℚ) (hr : 0 ≤ r) :
    subLoop t r = some (t.get ⟨i, hi⟩).1 ↔
      cumSum t i ≤ r ∧ r < cumSum t i + (t.get ⟨i, hi⟩).2 := by
  induction t generalizing i r with
  | nil => exact absurd hi (Nat.not_lt_zero i)
  | cons p rest ih =>
    obtain ⟨k, v⟩ := p
    rw [List.map_cons, List.nodup_cons] at hnd
    obtain ⟨hknotin, hndrest⟩ := hnd
    match i with
    | 0 =>
      simp only [List.get, cumSum_zero, zero_add]
      by_cases hlt : r - v < 0
      · simp only [subLoop, if_pos hlt]
        exact iff_of_true trivial ⟨hr, by linarith⟩
      · simp only [subLoop, if_neg hlt]
        constructor
        · intro h
          exact absurd (subLoop_mem h) hknotin
        · intro h
          linarith [h.2]
    | Nat.succ j =>
      have hj : j < rest.length := Nat.lt_of_succ_lt_succ hi
      have hget : ((k, v) :: rest).get ⟨j + 1, hi⟩ = rest.get ⟨j, hj⟩ := rfl
      rw [hget, cumSum_cons_succ]
      have hmem : (rest.get ⟨j, hj⟩).1 ∈ rest.map Prod.fst :=
        List.mem_map_of_mem Prod.fst (List.get_mem rest j hj)
      by_cases hlt : r - v < 0
      · simp only [subLoop, if_pos hlt]
        constructor
        · intro h
          rw [Option.some.injEq] at h
          exact absurd (h ▸ hmem) hknotin
        · intro h
          have h0 : 0 ≤ cumSum rest j :=
            cumSum_nonneg rest j fun p hp => le_of_lt (hpos p (List.mem_cons_of_mem _ hp))
          linarith [h.1]
      · simp only [subLoop, if_neg hlt]
        have hrec := ih j hj (fun p hp => hpos p (List.mem_cons_of_mem _ hp)) hndrest
          (r - v) (by linarith)
        rw [hrec]
        constructor
        · intro h
          exact ⟨by linarith [h.1], by linarith [h.2]⟩
        · intro h
          exact ⟨by linarith [h.1], by linarith [h.2]⟩

/-- In-range draws always select some entry. -/
theorem subLoop_total (t : List (Char × ℚ)) (r : ℚ) (h0 : 0 ≤ r)
    (hlt : r < (t.map Prod.snd).sum) : (subLoop t r).isSome = true := by
  induction t generalizing r with
  | nil =>
    simp only [List.map_nil, List.sum_nil] at hlt
    linarith
  | cons p rest ih =>
    obtain ⟨k, v⟩ := p
    by_cases hneg : r - v < 0
    · simp [subLoop, hneg]
    · rw [List.map_cons, List.sum_cons] at hlt
      simp only [subLoop, if_neg hneg]
      exact ih (r - v) (by linarith) (by linarith)

/-- On an all-zero table, the loop run at draw `0` falls off the end. -/
theorem subLoop_zeros : ∀ (t : List (Char × ℚ)),
    (∀ p ∈ t, p.2 = 0) → subLoop t 0 = none
  | [], _ => rfl
  | (k, v) :: rest, h => by
    have hv : v = 0 := h (k, v) (List.mem_cons_self _ _)
    show (if (0:ℚ) - v < 0 then some k else subLoop rest (0 - v)) = none
    rw [hv, sub_zero, if_neg (lt_irrefl 0)]
    exact subLoop_zeros rest fun p hp => h p (List.mem_cons_of_mem _ hp)

/-! ### Claim theorems C1, C2, C3 -/

/-- Claim C1: for a weight table with distinct keys and positive weights,
the cumulative-subtraction loop of `get_random_letter` maps a uniform draw
`r` in `[0, totalWeight)` to key `i` exactly when `r` lies in the
half-open interval starting at the cumulative weight before entry `i` and
of length `weight(i)` — so each key is selected with probability
`weight(k) / sum(all weights)`. -/
theorem subLoop_selects_cumulative_interval (t : List (Char × ℚ)) (i : Nat)
    (hi : i < t.length) (hpos : ∀ p ∈ t, 0 < p.2)
    (hnd : (t.map Prod.fst).Nodup) (r : ℚ) (hr : 0 ≤ r) :
    subLoop t r = some (t.get ⟨i, hi⟩).1 ↔
      cumSum t i ≤ r ∧ r < cumSum t i + (t.get ⟨i, hi⟩).2 :=
  subLoop_interval t i hi hpos hnd r hr

theorem subLoop_selects_cumulative_interval_witness :
    subLoop LETTERS (3/20) = some 'e' := by
  have h := (subLoop_selects_cumulative_interval LETTERS 2 (by decide)
    (by norm_num [LETTERS]) (by decide) (3/20) (by norm_num)).mpr
    (by norm_num [cumSum, LETTERS])
  exact h

/-- Claim C2 counterexample: when the subtraction loop exhausts the whole
table (here exhibited at the draw value `totalWeight`, i.e. `u = 1`), the
function returns `None` — there is no fallback to the last entry `q`. -/
theorem get_random_letter_exhaustion_returns_none :
    get_random_letter 1 = none ∧ get_random_letter 1 ≠ some 'q' := by
  have h : get_random_letter 1 = none := by
    norm_num [get_random_letter, weightedSample, subLoop, LETTERS]
  exact ⟨h, by rw [h]; exact fun hq => Option.noConfusion hq⟩

/-- Claim C2, amended: the loop has no fallback and returns `None` when it
exhausts the table, but for every draw `u` of `random.random()` (so
`0 ≤ u < 1`) exact arithmetic makes the loop trigger before exhaustion:
`get_random_letter` returns some key, and only keys of `LETTERS`. -/
theorem get_random_letter_inRange_isSome (u : ℚ) (h0 : 0 ≤ u) (h1 : u < 1) :
    (get_random_letter u).isSome = true ∧
      ∀ k, get_random_letter u = some k → k ∈ LETTERS.map Prod.fst := by
  constructor
  · have hpos : (0:ℚ) < (LETTERS.map Prod.snd).sum := by norm_num [LETTERS]
    have hr0 : 0 ≤ u * (LETTERS.map Prod.snd).sum := mul_nonneg h0 (le_of_lt hpos)
    have hrlt : u * (LETTERS.map Prod.snd).sum < (LETTERS.map Prod.snd).sum := by
      nlinarith
    exact subLoop_total LETTERS _ hr0 hrlt
  · intro k hk
    exact subLoop_mem hk

theorem get_random_letter_inRange_isSome_witness :
    (get_random_letter (1/2)).isSome = true :=
  (get_random_letter_inRange_isSome (1/2) (by norm_num) (by norm_num)).1

/-- Claim C3 counterexample: the sampler body run on an empty table, and on
a table whose weights are all `0`, terminates normally and returns `None`
(Python `None`, a degenerate no-selection result) — it does not fail with
an `InvalidArgument` error, the function has no validation at all. -/
theorem weightedSample_no_validation_cex :
    weightedSample [] (1/2) = none ∧
      weightedSample [('a', 0), ('b', 0)] (1/2) = none := by
  constructor
  · rfl
  · norm_num [weightedSample, subLoop]

/-- Claim C3, amended: the sampler performs no validation; on an empty
table, or on any table whose weights are all zero, it terminates (no
infinite loop, no division error) and returns `None` for every draw,
rather than failing with `InvalidArgument`. -/
theorem weightedSample_all_zero_weights_none (t : List (Char × ℚ)) (u : ℚ)
    (h : ∀ p ∈ t, p.2 = 0) : weightedSample t u = none := by
  have hs : (t.map Prod.snd).sum = 0 := by
    apply List.sum_eq_zero
    intro x hx
    obtain ⟨p, hp, rfl⟩ := List.mem_map.1 hx
    exact h p hp
  show subLoop t (u * (t.map Prod.snd).sum) = none
  rw [hs, mul_zero]
  exact subLoop_zeros t h

theorem weightedSample_all_zero_weights_none_witness :
    weightedSample [('a', 0)] 5 = none :=
  weightedSample_all_zero_weights_none [('a', 0)] 5 (by norm_num)

/-! ### Helper lemmas about the palette expansion -/

/-- Unfolding of the expansion comprehension on a cons cell. -/
theorem expandPalette_cons (p : String × Nat) (rest : List (String × Nat)) :
    expandPalette (p :: rest) = List.replicate p.2 p.1 ++ expandPalette rest := rfl

/-- Everything in an expanded palette is a key of the table. -/
theorem mem_expandPalette {t : List (String × Nat)} {x : String}
    (h : x ∈ expandPalette t) : x ∈ t.map Prod.fst := by
  rw [expandPalette, List.mem_flatMap] at h
  obtain ⟨p, hp, hx⟩ := h
  rw [List.eq_of_mem_replicate hx]
  exact List.mem_map_of_mem Prod.fst hp

theorem expandPalette_length (t : List (String × Nat)) :
    (expandPalette t).length = (t.map Prod.snd).sum := by
  induction t with
  | nil => rfl
  | cons p rest ih =>
    rw [expandPalette_cons, List.length_append, List.length_replicate, ih,
      List.map_cons, List.sum_cons]

/-- A string that is not a key of the table does not occur in the
expansion. -/
theorem count_expandPalette_of_not_mem (t : List (String × Nat)) (c : String)
    (h : c ∉ t.map Prod.fst) : (expandPalette t).count c = 0 := by
  induction t with
  | nil => rfl
  | cons p rest ih =>
    rw [List.map_cons, List.mem_cons] at h
    push_neg at h
    obtain ⟨h1, h2⟩ := h
    rw [expandPalette_cons, List.count_append, ih h2, List.count_replicate]
    simp [Ne.symm h1]

/-- Each key of a distinct-key table occurs in the expansion exactly its
weight many times. -/
theorem count_expandPalette (t : List (String × Nat))
    (hnd : (t.map Prod.fst).Nodup) (p : String × Nat) (hp : p ∈ t) :
    (expandPalette t).count p.1 = p.2 := by
  induction t with
  | nil => exact absurd hp (List.not_mem_nil p)
  | cons q rest ih =>
    rw [List.map_cons, List.nodup_cons] at hnd
    obtain ⟨hqnotin, hndrest⟩ := hnd
    rw [expandPalette_cons, List.count_append]
    rcases List.mem_cons.1 hp with hpq | hprest
    · subst hpq
      rw [List.count_replicate, if_pos (by simp),
        count_expandPalette_of_not_mem rest p.1 hqnotin, add_zero]
    · have hp1 : p.1 ∈ rest.map Prod.fst := List.mem_map_of_mem Prod.fst hprest
      have hne : q.1 ≠ p.1 := fun he => hqnotin (he ▸ hp1)
      rw [List.count_replicate, if_neg (by simpa using hne), ih hndrest hprest, zero_add]

/-! ### Claim theorems C4, C5, C6, C7 -/

/-- Claim C4 counterexample: the character pool of the no-palette fallback
is the source literal `abcdef01234567`, which does not contain the hex
digits `8` and `9` — so the fallback is not drawn from the full 16-digit
hex alphabet. -/
theorem fallbackAlphabet_missing_hex_digits :
    '8' ∉ fallbackAlphabet ∧ '9' ∉ fallbackAlphabet ∧
      fallbackAlphabet.length = 14 := by
  refine ⟨?_, ?_, ?_⟩ <;> decide

/-- Claim C4, amended: with no palette, `get_random_hex_color` returns a
string of length 7: the character `#` followed by 6 characters, each drawn
uniformly from the 14-character pool `abcdef01234567` (a duplicate-free
pool, so a uniform index draw gives each of its characters equal
probability); the digits `8` and `9` can never appear. -/
theorem get_random_hex_color_fallback_chars
    (f : Fin 6 → Fin fallbackAlphabet.length) :
    get_random_hex_color none f 0 = .ok (fallbackHex f) ∧
      (fallbackHex f).length = 7 ∧
      (fallbackHex f).data.head? = some '#' ∧
      (∀ c ∈ (fallbackHex f).data.tail, c ∈ fallbackAlphabet) ∧
      fallbackAlphabet.Nodup := by
  have hdata : (fallbackHex f).data =
      '#' :: (List.finRange 6).map fun j => fallbackAlphabet.get (f j) := by
    rw [fallbackHex, String.data_append]
    rfl
  refine ⟨rfl, ?_, ?_, ?_, by decide⟩
  · show (fallbackHex f).data.length = 7
    rw [hdata, List.length_cons, List.length_map, List.length_finRange]
  · rw [hdata]
    rfl
  · rw [hdata]
    intro c hc
    obtain ⟨j, _, rfl⟩ := List.mem_map.1 hc
    exact List.get_mem fallbackAlphabet _ _

/-- Claim C5 counterexample: for the generated item whose palette draws
select `171212` from `DARKS` and `f58eb9` from `LIGHTS` and whose letter
draw selects `e`, the stored metadata carries the color values with the
`#` prefix that `get_random_hex_color` prepends, so its serialization is
not the claimed array of bare 6-hex-digit values. -/
theorem gen_image_metadata_hash_cex :
    gen_image 0 0 defaultHexChoice (3/20) =
      .ok (some (MetaData.mk "#171212" "e" "#f58eb9")) ∧
    MetaData.as_os_metadata (MetaData.mk "#171212" "e" "#f58eb9") ≠
      [[("trait_type", "bg_color"), ("value", "171212")],
       [("trait_type", "letter"), ("value", "e")],
       [("trait_type", "letter_color"), ("value", "f58eb9")]] := by
  constructor
  · norm_num [gen_image, get_random_letter, weightedSample, subLoop, LETTERS,
      get_random_hex_color, DARKS, LIGHTS, expandPalette, _DARKS, _LIGHTS, randomChoice]
    rfl
  · decide

/-- Claim C5, amended: for that item the persisted metadata array is
exactly the claimed one except that both color values carry the `#`
prefix: bg_color `#171212`, letter `e`, letter_color `#f58eb9`. -/
theorem gen_image_metadata_hash_value :
    (gen_image 0 0 defaultHexChoice (3/20)).map
        (Option.map MetaData.as_os_metadata) =
      .ok (some [[("trait_type", "bg_color"), ("value", "#171212")],
                 [("trait_type", "letter"), ("value", "e")],
                 [("trait_type", "letter_color"), ("value", "#f58eb9")]]) := by
  norm_num [gen_image, get_random_letter, weightedSample, subLoop, LETTERS,
    get_random_hex_color, DARKS, LIGHTS, expandPalette, _DARKS, _LIGHTS, randomChoice]
  rfl

/-- Claim C6 counterexample: the value returned by the palette sampler is
`#`-prefixed, and that returned string is not itself among the enumerated
color codes of the dark weight table (nor of its expansion). -/
theorem palette_sampler_result_not_bare_key :
    get_random_hex_color (some DARKS) defaultHexChoice 0 = .ok "#171212" ∧
      "#171212" ∉ _DARKS.map Prod.fst ∧ "#171212" ∉ DARKS := by
  refine ⟨rfl, by decide, by decide⟩

/-- Claim C6, amended: for every palette table, every value the palette
sampler returns is `#` followed by a color code that appears among the
keys of the table (the sampler returns `"#" + c` with `c` a table key). -/
theorem palette_sampler_returns_hash_key (t : List (String × Nat))
    (f : Fin 6 → Fin fallbackAlphabet.length) (i : Nat)
    (hi : i < (expandPalette t).length) :
    ∃ c, c ∈ t.map Prod.fst ∧
      get_random_hex_color (some (expandPalette t)) f i = .ok ("#" ++ c) := by
  refine ⟨(expandPalette t).get ⟨i, hi⟩,
    mem_expandPalette (List.get_mem _ _ _), ?_⟩
  have hne : (expandPalette t).isEmpty = false := by
    rcases hl : expandPalette t with _ | ⟨a, l⟩
    · rw [hl] at hi
      simp at hi
    · rfl
  simp only [get_random_hex_color, hne, Bool.false_eq_true, if_false, randomChoice,
    dif_pos hi, Except.map]

theorem palette_sampler_returns_hash_key_witness :
    ∃ c, c ∈ _DARKS.map Prod.fst ∧
      get_random_hex_color (some (expandPalette _DARKS)) defaultHexChoice 0 =
        .ok ("#" ++ c) :=
  palette_sampler_returns_hash_key _DARKS defaultHexChoice 0 (by decide)

/-- Claim C7: expanding a palette with distinct keys yields a flat
sequence of length the sum of the weights in which each color occurs
exactly its weight many times, and sampling at an in-range uniform index
returns the element at that index — hence each color is selected with
probability `weight(color) / sum(weights)`. -/
theorem expandPalette_counts (t : List (String × Nat))
    (hnd : (t.map Prod.fst).Nodup) :
    (expandPalette t).length = (t.map Prod.snd).sum ∧
      (∀ p ∈ t, (expandPalette t).count p.1 = p.2) ∧
      ∀ i (hi : i < (expandPalette t).length),
        randomChoice (expandPalette t) i = .ok ((expandPalette t).get ⟨i, hi⟩) := by
  refine ⟨expandPalette_length t, fun p hp => count_expandPalette t hnd p hp, ?_⟩
  intro i hi
  rw [randomChoice, dif_pos hi]

theorem expandPalette_counts_witness :
    (expandPalette _DARKS).length = 15 ∧
      (expandPalette _DARKS).count "171212" = 5 ∧
      randomChoice (expandPalette _DARKS) 14 = .ok "3c011d" := by
  have h := expandPalette_counts _DARKS (by decide)
  refine ⟨?_, ?_, ?_⟩
  · rw [h.1]; decide
  · exact h.2.1 ("171212", 5) (by decide)
  · exact (h.2.2 14 (by decide)).trans rfl

/-! ### Helper lemmas about decimal file names -/

theorem charToDigit_digitToChar {d : Nat} (h : d < 10) :
    charToDigit (digitToChar d) = d := by
  interval_cases d <;> rfl

/-- Decoding inverts `decimalRepr`. -/
theorem decode_decimalRepr (n : Nat) : decodeDecimal (decimalRepr n) = n := by
  by_cases h : n = 0
  · subst h
    rfl
  · rw [decimalRepr, if_neg h]
    show Nat.ofDigits 10
      ((((Nat.digits 10 n).map digitToChar).reverse.map charToDigit).reverse) = n
    rw [← List.map_reverse, List.reverse_reverse, List.map_map]
    have hcongr : List.map (charToDigit ∘ digitToChar) (Nat.digits 10 n) =
        List.map id (Nat.digits 10 n) :=
      List.map_congr_left fun d hd =>
        charToDigit_digitToChar (Nat.digits_lt_base (by norm_num) hd)
    rw [hcongr, List.map_id]
    exact Nat.ofDigits_digits 10 n

theorem decimalRepr_injective : Function.Injective decimalRepr := by
  intro a b h
  have h2 := congrArg decodeDecimal h
  rwa [decode_decimalRepr, decode_decimalRepr] at h2

/-- Appending a fixed suffix to strings is injective. -/
theorem string_append_left_injective (suf : String) :
    Function.Injective fun s => s ++ suf := by
  intro a b h
  apply String.ext
  have h2 := congrArg String.data h
  rw [String.data_append, String.data_append] at h2
  exact List.append_cancel_right h2

/-! ### Claim theorems C8, C9, C10 -/

/-- Claim C8: for a configured total `n`, the batch produces exactly `n`
(image name, metadata name) pairs; the pair at index `i` is
`str(i) + EXT` and `str(i) + "-meta.json"`; and both name families are
duplicate-free (the source configures `n = TOTAL_IMAGES`). -/
theorem generate_images_names_spec (n : Nat) :
    (generate_images_names n).length = n ∧
      (∀ i, i < n → (generate_images_names n)[i]? =
        some (decimalRepr i ++ EXT, decimalRepr i ++ "-meta.json")) ∧
      ((generate_images_names n).map Prod.fst).Nodup ∧
      ((generate_images_names n).map Prod.snd).Nodup := by
  refine ⟨?_, ?_, ?_, ?_⟩
  · rw [generate_images_names, List.length_map, List.length_range]
  · intro i hi
    rw [generate_images_names, List.getElem?_map, List.getElem?_range hi]
    rfl
  · rw [generate_images_names, List.map_map]
    exact ((List.nodup_range n).map
      ((string_append_left_injective EXT).comp decimalRepr_injective))
  · rw [generate_images_names, List.map_map]
    exact ((List.nodup_range n).map
      ((string_append_left_injective "-meta.json").comp decimalRepr_injective))

theorem generate_images_names_spec_witness :
    (generate_images_names 5).length = 5 ∧
      (generate_images_names 5)[0]? = some ("0.jpg", "0-meta.json") ∧
      ((generate_images_names 5).map Prod.snd).Nodup := by
  have h := generate_images_names_spec 5
  exact ⟨h.1, ((h.2.1 0 (by decide)).trans rfl), h.2.2.2⟩

/-- Claim C9: an empty palette list is falsy, so `get_random_hex_color`
takes the same fallback path as a missing (`None`) palette: it does not
index into the empty sequence and does not raise, it returns the
`#`-prefixed fallback string of 6 random hex characters (7 characters in
total). -/
theorem get_random_hex_color_empty_list_fallback
    (f : Fin 6 → Fin fallbackAlphabet.length) (i : Nat) :
    get_random_hex_color (some []) f i = get_random_hex_color none f i ∧
      get_random_hex_color (some []) f i = .ok (fallbackHex f) ∧
      (fallbackHex f).length = 7 ∧
      (fallbackHex f).data.head? = some '#' := by
  refine ⟨rfl, rfl, ?_, ?_⟩
  · show (fallbackHex f).data.length = 7
    rw [fallbackHex, String.data_append, List.length_append, List.length_map,
      List.length_finRange]
    rfl
  · rw [fallbackHex, String.data_append]
    rfl

/-- Claim C10: the OpenSea serialization agrees with the plain dictionary
view: `as_os_metadata` is exactly `to_dict` mapped entrywise to
trait objects, in the same order. -/
theorem as_os_metadata_eq_to_dict_map (m : MetaData) :
    m.as_os_metadata =
      m.to_dict.map fun kv => [("trait_type", kv.1), ("value", kv.2)] := by
  cases m
  rfl
